import Mathlib

/-!
Shallow embedding of the analytics engine of the `2025-chat-stats` repository
(`chat_loader.py`, `stats_words.py`, `stats_messages.py`, `stats_time.py`),
together with theorems settling the frozen specification claims.

Conventions of the embedding:
* Python `str` is `String` / `List Char`; `int` is `Int`; counters are lengths
  of filtered lists; dict insertion order is modelled explicitly.
* `datetime.date` values are embedded twice, exactly as the code uses them:
  the `(year, month, day)` components (used by `monthly_message_counts` for
  the `"YYYY-MM"` bucket key) and the proleptic Gregorian ordinal
  (`date.toordinal()`, an integer), which is the only thing streak detection
  uses (`(a - b).days` is the difference of ordinals, and
  `d.fromordinal(d.toordinal() + k)` adds `k` to the ordinal).  `isoformat`
  is injective on dates, so streak results keep the ordinal representation.
* `str.lower`, the regex class `[^\W\d_]` and `\S` are embedded restricted to
  the character ranges this development exercises (ASCII and the Cyrillic
  block, the scripts of the repository's data): `pyLower` is the case-folding
  table for those ranges and the identity elsewhere, `isWordChar` recognises
  ASCII and Cyrillic letters, `pyIsSpace` the six ASCII whitespace characters.
-/

namespace ChatStats

/-- The `(year, month, day)` component view of a `datetime` value. -/
structure Date where
  year : Nat
  month : Nat
  day : Nat
deriving DecidableEq, Repr

/-- `chat_loader.ChatMessage`. `date_only` is the proleptic Gregorian ordinal
of the message's calendar day (`date.toordinal()`). -/
structure ChatMessage where
  id : Int
  sender_name : Option String
  sender_id : Option String
  date : Date
  date_only : Int
  text : String
  media_type : Option String
  file_name : Option String
  sticker_emoji : Option String
deriving DecidableEq, Repr

/-- Python truthiness-based string coalescing: `x or y` where `x` is an
optional string (`None` and `""` are falsy). -/
def strOr (x : Option String) (y : String) : String :=
  match x with
  | none => y
  | some s => if s = "" then y else s

/-- `msg.sender_name or (msg.sender_id or "unknown")`, the sender-key
resolution used by every grouping function. -/
def sender_key (m : ChatMessage) : String :=
  strOr m.sender_name (strOr m.sender_id "unknown")

/-! ### Text normalizer (`stats_words.py`) -/

/-- Case-folding table of `str.lower` for the ASCII and Cyrillic ranges used
here (Cyrillic `Ѐ`–`Џ`, `А`–`Я`, and `Ґ`). -/
def lowerTable : List (Char × Char) :=
  [('A', 'a'), ('B', 'b'), ('C', 'c'), ('D', 'd'), ('E', 'e'), ('F', 'f'),
   ('G', 'g'), ('H', 'h'), ('I', 'i'), ('J', 'j'), ('K', 'k'), ('L', 'l'),
   ('M', 'm'), ('N', 'n'), ('O', 'o'), ('P', 'p'), ('Q', 'q'), ('R', 'r'),
   ('S', 's'), ('T', 't'), ('U', 'u'), ('V', 'v'), ('W', 'w'), ('X', 'x'),
   ('Y', 'y'), ('Z', 'z'),
   ('Ѐ', 'ѐ'), ('Ё', 'ё'), ('Ђ', 'ђ'), ('Ѓ', 'ѓ'), ('Є', 'є'), ('Ѕ', 'ѕ'),
   ('І', 'і'), ('Ї', 'ї'), ('Ј', 'ј'), ('Љ', 'љ'), ('Њ', 'њ'), ('Ћ', 'ћ'),
   ('Ќ', 'ќ'), ('Ѝ', 'ѝ'), ('Ў', 'ў'), ('Џ', 'џ'),
   ('А', 'а'), ('Б', 'б'), ('В', 'в'), ('Г', 'г'), ('Д', 'д'), ('Е', 'е'),
   ('Ж', 'ж'), ('З', 'з'), ('И', 'и'), ('Й', 'й'), ('К', 'к'), ('Л', 'л'),
   ('М', 'м'), ('Н', 'н'), ('О', 'о'), ('П', 'п'), ('Р', 'р'), ('С', 'с'),
   ('Т', 'т'), ('У', 'у'), ('Ф', 'ф'), ('Х', 'х'), ('Ц', 'ц'), ('Ч', 'ч'),
   ('Ш', 'ш'), ('Щ', 'щ'), ('Ъ', 'ъ'), ('Ы', 'ы'), ('Ь', 'ь'), ('Э', 'э'),
   ('Ю', 'ю'), ('Я', 'я'), ('Ґ', 'ґ')]

/-- `str.lower`, character by character, restricted to the table above. -/
def pyLower (c : Char) : Char :=
  match lowerTable.lookup c with
  | some l => l
  | none => c

/-- The regex class `\s` (equivalently, the complement of `\S`):
`' '`, `'\t'`, `'\n'`, `'\r'`, `'\x0b'`, `'\x0c'`. -/
def pyIsSpace (c : Char) : Bool :=
  c = ' ' || c = '\t' || c = '\n' || c = '\r' || c = '\x0B' || c = '\x0C'

/-- The regex class `[^\W\d_]` (letters), restricted to ASCII and Cyrillic. -/
def isWordChar (c : Char) : Bool :=
  ('a' ≤ c && c ≤ 'z') || ('A' ≤ c && c ≤ 'Z') ||
    (0x400 ≤ c.toNat && c.toNat ≤ 0x4FF)

/-- One attempted match of `https?://\S+` at the head of the character list:
on success, returns the remainder after the whole match.  `s?` is tried
greedily, `\S+` requires at least one non-whitespace character and then
extends maximally. -/
def stripUrl (l : List Char) : Option (List Char) :=
  let rest? : Option (List Char) :=
    if ("https://".toList).isPrefixOf l then some (l.drop 8)
    else if ("http://".toList).isPrefixOf l then some (l.drop 7)
    else none
  match rest? with
  | none => none
  | some r =>
    match r with
    | [] => none
    | c :: _ => if pyIsSpace c then none else some (r.dropWhile (fun d => !pyIsSpace d))

/-- `re.sub(r"https?://\S+", " ", text)`: left-to-right scan, each
non-overlapping leftmost match replaced by a single space.  Structured with
explicit fuel (the scan position advances by at least one per step, and a
match consumes at least eight characters, so the input length is enough
fuel). -/
def removeUrlsGo : Nat → List Char → List Char
  | _, [] => []
  | 0, l => l
  | fuel + 1, c :: rest =>
    match stripUrl (c :: rest) with
    | some rest' => ' ' :: removeUrlsGo fuel rest'
    | none => c :: removeUrlsGo fuel rest

def removeUrls (l : List Char) : List Char :=
  removeUrlsGo l.length l

/-- `re.sub(r"(.)\1+", r"\1", word)`: collapse every maximal run of two or
more identical consecutive characters to one occurrence.  The regex dot does
not match `'\n'`, so runs of newlines are left untouched. -/
def collapseRepeats : List Char → List Char
  | [] => []
  | [c] => [c]
  | a :: b :: rest =>
    if a = b ∧ a ≠ '\n' then collapseRepeats (b :: rest)
    else a :: collapseRepeats (b :: rest)

/-- `normalize_repeats` from `stats_words.py`. -/
def normalize_repeats (w : String) : String :=
  ⟨collapseRepeats w.data⟩

/-- `WORD_RE.findall`: maximal runs of word characters of length ≥ 3, in
order.  `acc` is the current run, reversed. -/
def wordRunsGo : List Char → List Char → List (List Char)
  | [], acc => if 3 ≤ acc.length then [acc.reverse] else []
  | c :: rest, acc =>
    if isWordChar c then wordRunsGo rest (c :: acc)
    else (if 3 ≤ acc.length then [acc.reverse] else []) ++ wordRunsGo rest []

def wordRuns (l : List Char) : List (List Char) :=
  wordRunsGo l []

/-- `extract_normalized_words` from `stats_words.py`: lowercase, strip
`https?://` URLs, tokenize with `WORD_RE`, collapse repeats, drop tokens
shorter than 3 after collapsing. -/
def extract_normalized_words (text : String) : List String :=
  let lowered := text.data.map pyLower
  let cleaned := removeUrls lowered
  (wordRuns cleaned).filterMap (fun raw =>
    let w := collapseRepeats raw
    if w.length < 3 then none else some ⟨w⟩)

/-! ### Generic stable sort

`heapq.nlargest(n, items, key)` (used by `Counter.most_common`) and Python's
`sorted` are stable: elements that compare equal keep their original relative
order.  For a total preorder the stable sort is a unique function of the
input, so it is embedded as a stable insertion sort: an element is inserted
after every strictly smaller element and before ties. -/

def insertLe {α : Type} (le : α → α → Bool) (x : α) : List α → List α
  | [] => [x]
  | y :: ys => if le y x && !le x y then y :: insertLe le x ys else x :: y :: ys

def sortLe {α : Type} (le : α → α → Bool) : List α → List α
  | [] => []
  | x :: xs => insertLe le x (sortLe le xs)

/-- First-occurrence deduplication: the key order of a Python `dict` /
`Counter` built by repeated insertion. -/
def firstDedupGo {α : Type} [DecidableEq α] (seen : List α) : List α → List α
  | [] => []
  | a :: l =>
    if a ∈ seen then firstDedupGo seen l else a :: firstDedupGo (a :: seen) l

def firstDedup {α : Type} [DecidableEq α] (l : List α) : List α :=
  firstDedupGo [] l

/-! ### Frequency engine (`stats_words.py`) -/

/-- `DEFAULT_SKIP_WORDS` from `stats_words.py`. -/
def DEFAULT_SKIP_WORDS : List String :=
  ["ти", "я", "і", "та", "це", "що", "але", "не", "ну", "так", "мені",
   "мене", "там", "вже", "все", "тебе", "тобі", "про", "щоб", "теж"]

/-- `normalize_repeats(w.lower())`, the normalization applied to skip words
and search targets. -/
def normalize_single (w : String) : String :=
  ⟨collapseRepeats (w.data.map pyLower)⟩

/-- Tokens of one message, guarded by `if not msg.text: continue`. -/
def msgTokens (m : ChatMessage) : List String :=
  if m.text = "" then [] else extract_normalized_words m.text

/-- The per-token counting events of the `top_words` loop, in iteration
order: one `(sender_key, word)` pair for every token that passes the
`min_len` and skip-set guards. -/
def countedPairs (msgs : List ChatMessage) (min_len : Int)
    (skip_set : List String) : List (String × String) :=
  msgs.flatMap (fun m =>
    (msgTokens m).filterMap (fun w =>
      if (w.length : Int) < min_len ∨ w ∈ skip_set then none
      else some (sender_key m, w)))

/-- One entry of the `top_words` result:
`{word, total_count, per_person}`. -/
structure WordEntry where
  word : String
  total_count : Nat
  per_person : List (String × Nat)
deriving DecidableEq, Repr

/-- The skip-set of `top_words`: built-in defaults merged with the caller's
list, all normalized by `normalize_repeats(w.lower())`. -/
def skipSet (skip : List String) : List String :=
  (DEFAULT_SKIP_WORDS ++ skip).map normalize_single

/-- The counting events of one `top_words` call. -/
def twPairs (msgs : List ChatMessage) (min_len : Int) (skip : List String) :
    List (String × String) :=
  countedPairs msgs min_len (skipSet skip)

/-- The keys of `total_counter`, in first-encounter order (dict semantics). -/
def twWords (msgs : List ChatMessage) (min_len : Int) (skip : List String) :
    List String :=
  firstDedup ((twPairs msgs min_len skip).map (fun p => p.2))

/-- The keys of the `per_person` defaultdict, in first-encounter order. -/
def twSenders (msgs : List ChatMessage) (min_len : Int) (skip : List String) :
    List String :=
  firstDedup ((twPairs msgs min_len skip).map (fun p => p.1))

/-- `total_counter.items()`: each counted word with its global count. -/
def twItems (msgs : List ChatMessage) (min_len : Int) (skip : List String) :
    List (String × Nat) :=
  (twWords msgs min_len skip).map (fun w =>
    (w, ((twPairs msgs min_len skip).filter (fun p => p.2 = w)).length))

/-- The `per_person` sub-dict reported for word `w`: senders with a positive
count for `w`, in sender first-encounter order. -/
def twPerPerson (msgs : List ChatMessage) (min_len : Int) (skip : List String)
    (w : String) : List (String × Nat) :=
  (twSenders msgs min_len skip).filterMap (fun s =>
    if 0 < ((twPairs msgs min_len skip).filter (fun p => p.1 = s ∧ p.2 = w)).length
    then some (s, ((twPairs msgs min_len skip).filter (fun p => p.1 = s ∧ p.2 = w)).length)
    else none)

/-- `top_words` from `stats_words.py`.  `most_common(top_n)` is the stable
descending sort by count cut to `top_n` entries (empty for `top_n ≤ 0`). -/
def top_words (msgs : List ChatMessage) (min_len : Int) (top_n : Int)
    (skip : List String) : List WordEntry :=
  ((sortLe (fun a b => b.2 ≤ a.2) (twItems msgs min_len skip)).take top_n.toNat).map
    (fun wc => { word := wc.1, total_count := wc.2
                 per_person := twPerPerson msgs min_len skip wc.1 })

/-- All `(sender_key, token)` pairs of a message list, in iteration order
(used by `count_specific_words`, which applies no `min_len`/skip filter). -/
def allSenderTokens (msgs : List ChatMessage) : List (String × String) :=
  msgs.flatMap (fun m => (msgTokens m).map (fun w => (sender_key m, w)))

/-- The `norm_targets` dict of `count_specific_words`: original target →
normalized form, keyed in first-occurrence order, dropping targets whose
normalized form is empty. -/
def normTargets (target_words : List String) : List (String × String) :=
  (firstDedup target_words).filterMap (fun w =>
    let n := normalize_single w
    if n = "" then none else some (w, n))

/-- One entry of the `count_specific_words` result. -/
structure TargetEntry where
  target : String
  total_count : Nat
  per_person : List (String × Nat)
deriving DecidableEq, Repr

/-- The sender keys of the `per_person` defaultdict of
`count_specific_words`, in the order they are first inserted (the first
message in which the sender matches any target). -/
def cswSenders (msgs : List ChatMessage) (target_words : List String) :
    List String :=
  firstDedup ((msgs.filter (fun m =>
    (msgTokens m).any (fun w => ((normTargets target_words).map (fun p => p.2)).contains w))).map
      sender_key)

/-- The `per_person` sub-dict reported for the normalized target `no`. -/
def cswPerPerson (msgs : List ChatMessage) (target_words : List String)
    (no : String) : List (String × Nat) :=
  (cswSenders msgs target_words).filterMap (fun s =>
    if 0 < ((allSenderTokens msgs).filter (fun p => p.1 = s ∧ p.2 = no)).length
    then some (s, ((allSenderTokens msgs).filter (fun p => p.1 = s ∧ p.2 = no)).length)
    else none)

/-- `count_specific_words` from `stats_words.py`.  For each kept target the
total is the number of matching tokens over all messages; `per_person` lists
the senders with a positive match count for that target. -/
def count_specific_words (msgs : List ChatMessage) (target_words : List String) :
    List TargetEntry :=
  (normTargets target_words).map (fun ono =>
    { target := ono.1
      total_count := ((allSenderTokens msgs).filter (fun p => p.2 = ono.2)).length
      per_person := cswPerPerson msgs target_words ono.2 })

/-! ### Time aggregator (`stats_time.py`) -/

/-- Zero-padding of `f"{n:0{width}d}"` for `n ≥ 0`. -/
def padNum (width : Nat) (n : Nat) : String :=
  let s := toString n
  ⟨List.replicate (width - s.length) '0' ++ s.data⟩

/-- The bucket key `f"{m.date.year:04d}-{m.date.month:02d}"`. -/
def monthKey (d : Date) : String :=
  padNum 4 d.year ++ "-" ++ padNum 2 d.month

/-- Code-point lexicographic comparison of character lists: the order Python
uses on `str`. -/
def listLexLe : List Char → List Char → Bool
  | [], _ => true
  | _ :: _, [] => false
  | a :: as, b :: bs => if a < b then true else if b < a then false else listLexLe as bs

def strLe (a b : String) : Bool :=
  listLexLe a.data b.data

/-- `monthly_message_counts` from `stats_time.py`: count messages per
`"YYYY-MM"` key, then sort the items ascending by key. -/
def monthly_message_counts (msgs : List ChatMessage) : List (String × Nat) :=
  let keys := firstDedup (msgs.map (fun m => monthKey m.date))
  let items := keys.map (fun k =>
    (k, (msgs.filter (fun m => monthKey m.date = k)).length))
  sortLe (fun a b => strLe a.1 b.1) items

/-! ### Streak detector (`stats_messages.py`) -/

/-- `sorted({m.date_only for m in messages})`: the ascending list of distinct
active days (as ordinals). -/
def activeDays (msgs : List ChatMessage) : List Int :=
  sortLe (fun a b => a ≤ b) ((msgs.map (fun m => m.date_only)).dedup)

/-- The running state of the talking-streak loop. -/
structure TalkState where
  best_len : Nat
  best_start : Int
  best_end : Int
  cur_len : Nat
  cur_start : Int
deriving DecidableEq, Repr

/-- The `for prev, current in zip(days, days[1:])` talking-streak loop;
returns the final state together with the last day seen (`days[-1]`). -/
def talkLoop : TalkState → Int → List Int → TalkState × Int
  | s, prev, [] => (s, prev)
  | s, prev, current :: rest =>
    if current - prev = 1 then
      talkLoop { s with cur_len := s.cur_len + 1 } current rest
    else if s.best_len < s.cur_len then
      talkLoop { best_len := s.cur_len, best_start := s.cur_start,
                 best_end := prev, cur_len := 1, cur_start := current }
        current rest
    else
      talkLoop { s with cur_len := 1, cur_start := current } current rest

/-- Talking streak of a non-empty day list: run the loop from the initial
state anchored at the first day, then apply the final
`if cur_len > best_talk_len` check (whose end day is `days[-1]`).
Returns `(length, start, end)`. -/
def talkingOf : List Int → Nat × Int × Int
  | [] => (0, 0, 0)
  | d :: rest =>
    let r := talkLoop ⟨1, d, d, 1, d⟩ d rest
    if r.1.best_len < r.1.cur_len then (r.1.cur_len, r.1.cur_start, r.2)
    else (r.1.best_len, r.1.best_start, r.1.best_end)

/-- The silent-streak loop: state `(best_len, best_start, best_end)`, updated
only when a gap strictly exceeds the best so far; dates are set only for a
positive gap. -/
def silentLoop : Int × Option Int × Option Int → Int → List Int →
    Int × Option Int × Option Int
  | st, _, [] => st
  | (bl, bs, be), prev, current :: rest =>
    let gap := current - prev - 1
    if bl < gap then
      silentLoop
        (gap,
         if 0 < gap then some (prev + 1) else bs,
         if 0 < gap then some (prev + gap) else be)
        current rest
    else silentLoop (bl, bs, be) current rest

/-- Silent streak of a day list, starting from best length 0 and null dates. -/
def silentOf : List Int → Int × Option Int × Option Int
  | [] => (0, none, none)
  | d :: rest => silentLoop (0, none, none) d rest

/-- One streak record `{length_days, start_date, end_date}`; dates are day
ordinals (`isoformat` is injective on dates). -/
structure StreakRecord where
  length_days : Int
  start_date : Option Int
  end_date : Option Int
deriving DecidableEq, Repr

structure Streaks where
  talking : StreakRecord
  silent : StreakRecord
deriving DecidableEq, Repr

/-- `longest_talking_and_silent_streaks` from `stats_messages.py`. -/
def longest_talking_and_silent_streaks (msgs : List ChatMessage) : Streaks :=
  if msgs = [] then
    ⟨⟨0, none, none⟩, ⟨0, none, none⟩⟩
  else
    let days := activeDays msgs
    let t := talkingOf days
    let s := silentOf days
    ⟨⟨(t.1 : Int), some t.2.1, some t.2.2⟩, ⟨s.1, s.2.1, s.2.2⟩⟩

/-! ### Specification-side notions and example data -/

/-- The gaps `(current - prev).days - 1` between consecutive entries of a day
list. -/
def pairGaps (days : List Int) : List Int :=
  (days.zip days.tail).map (fun pc => pc.2 - pc.1 - 1)

/-- `p` and `q` are consecutive entries of `days`. -/
def adjacentIn (days : List Int) (p q : Int) : Prop :=
  ∃ l₁ l₂, days = l₁ ++ p :: q :: l₂

/-- Invariant of the silent-streak loop state: either nothing has been
recorded (length 0, null dates), or the best gap is positive and is realised
by a consecutive pair of the day list, with the recorded dates being the day
after the earlier and the day before the later of that pair. -/
def SilentInv (days : List Int) (st : Int × Option Int × Option Int) : Prop :=
  (st.1 = 0 ∧ st.2.1 = none ∧ st.2.2 = none) ∨
  (0 < st.1 ∧ ∃ p q, adjacentIn days p q ∧ q - p - 1 = st.1 ∧
    st.2.1 = some (p + 1) ∧ st.2.2 = some (q - 1))

/-- Invariant of the talking-streak loop state relative to the set `S` of
active days: both the best and the current streak have length ≥ 1, their
recorded end (resp. the day under scan) is start + length - 1, and all
recorded days are active days. -/
def TalkInv (S : List Int) (st : TalkState) (prev : Int) : Prop :=
  1 ≤ st.best_len ∧ 1 ≤ st.cur_len ∧
  st.best_end + 1 = st.best_start + (st.best_len : Int) ∧
  prev + 1 = st.cur_start + (st.cur_len : Int) ∧
  st.best_start ∈ S ∧ st.best_end ∈ S ∧ st.cur_start ∈ S ∧ prev ∈ S

/-- Example message constructor for concrete instances. -/
def mkMsg (name : Option String) (sid : Option String) (d : Date) (ord : Int)
    (text : String) : ChatMessage :=
  ⟨0, name, sid, d, ord, text, none, none, none⟩

/-- A message on day ordinal `o` (2024-01-01 is ordinal 738886). -/
def exDay (o : Int) : ChatMessage :=
  mkMsg (some "a") none ⟨2024, 1, 1⟩ o "x"

/-- Example conversation exercising the word statistics. -/
def exMsgs : List ChatMessage :=
  [mkMsg (some "Аня") none ⟨2024, 1, 1⟩ 738886 "Привіііт світ привіт",
   mkMsg none (some "user123") ⟨2024, 1, 2⟩ 738887 "привіт ааа bbb",
   mkMsg (some "") none ⟨2024, 1, 3⟩ 738888 "світ світ hello https://t.me/x"]

/-- The spec's monthly-count example: messages dated 2024-01-05, 2024-01-20
and 2024-03-01. -/
def exMonthly : List ChatMessage :=
  [mkMsg (some "a") none ⟨2024, 1, 5⟩ 738890 "x",
   mkMsg (some "a") none ⟨2024, 1, 20⟩ 738905 "x",
   mkMsg (some "a") none ⟨2024, 3, 1⟩ 738946 "x"]

/-! ### Lemmas about the generic stable sort -/

theorem insertLe_perm {α : Type} (le : α → α → Bool) (x : α) (l : List α) :
    (insertLe le x l).Perm (x :: l) := by
  induction l with
  | nil => simp [insertLe]
  | cons y ys ih =>
    simp only [insertLe]
    split
    · exact ((ih.cons y).trans (List.Perm.swap x y ys))
    · exact List.Perm.refl _

theorem sortLe_perm {α : Type} (le : α → α → Bool) (l : List α) :
    (sortLe le l).Perm l := by
  induction l with
  | nil => simp [sortLe]
  | cons x xs ih =>
    exact (insertLe_perm le x (sortLe le xs)).trans (ih.cons x)

theorem mem_insertLe {α : Type} (le : α → α → Bool) (x a : α) (l : List α) :
    a ∈ insertLe le x l ↔ a = x ∨ a ∈ l := by
  rw [(insertLe_perm le x l).mem_iff, List.mem_cons]

theorem pairwise_insertLe {α : Type} (le : α → α → Bool)
    (htot : ∀ a b, le a b || le b a)
    (htrans : ∀ a b c, le a b = true → le b c = true → le a c = true)
    (x : α) (l : List α) (hl : l.Pairwise (fun a b => le a b = true)) :
    (insertLe le x l).Pairwise (fun a b => le a b = true) := by
  induction l with
  | nil => simp [insertLe]
  | cons y ys ih =>
    rw [List.pairwise_cons] at hl
    obtain ⟨hy, hys⟩ := hl
    simp only [insertLe]
    split
    · rename_i hcond
      simp only [Bool.and_eq_true, Bool.not_eq_true'] at hcond
      refine List.Pairwise.cons ?_ (ih hys)
      intro z hz
      rcases (mem_insertLe le x z ys).mp hz with rfl | hz
      · exact hcond.1
      · exact hy z hz
    · rename_i hcond
      simp only [Bool.and_eq_true, Bool.not_eq_true'] at hcond
      have hxy : le x y = true := by
        by_cases h' : le x y = true
        · exact h'
        · exfalso
          apply hcond
          refine ⟨?_, by simpa using h'⟩
          rcases Bool.or_eq_true _ _ |>.mp (htot x y) with h | h
          · exact absurd h h'
          · exact h
      refine List.Pairwise.cons ?_ (List.Pairwise.cons hy hys)
      intro z hz
      rcases List.mem_cons.mp hz with rfl | hz
      · exact hxy
      · exact htrans x y z hxy (hy z hz)

theorem sortLe_sorted {α : Type} (le : α → α → Bool)
    (htot : ∀ a b, le a b || le b a)
    (htrans : ∀ a b c, le a b = true → le b c = true → le a c = true)
    (l : List α) : (sortLe le l).Pairwise (fun a b => le a b = true) := by
  induction l with
  | nil => simp [sortLe]
  | cons x xs ih => exact pairwise_insertLe le htot htrans x _ ih

theorem filter_insertLe_pos {α : Type} (le : α → α → Bool) (p : α → Bool)
    (hp : ∀ a b, p a = true → p b = true → le a b = true)
    (x : α) (l : List α) (hx : p x = true) :
    (insertLe le x l).filter p = x :: l.filter p := by
  induction l with
  | nil => simp [insertLe, hx]
  | cons y ys ih =>
    simp only [insertLe]
    split
    · rename_i hcond
      simp only [Bool.and_eq_true, Bool.not_eq_true'] at hcond
      have hpy : p y = false := by
        by_cases h : p y = true
        · exact absurd (hp x y hx h) (by simpa using hcond.2)
        · simpa using h
      simp [List.filter_cons, hpy, ih]
    · simp [List.filter_cons, hx]

theorem filter_insertLe_neg {α : Type} (le : α → α → Bool) (p : α → Bool)
    (x : α) (l : List α) (hx : p x = false) :
    (insertLe le x l).filter p = l.filter p := by
  induction l with
  | nil => simp [insertLe, hx]
  | cons y ys ih =>
    simp only [insertLe]
    split
    · simp [List.filter_cons, ih]
    · simp [List.filter_cons, hx]

/-- Stability of the sort: elements that tie under `le` (here: all elements
satisfying `p`) keep their original relative order, so filtering by `p`
commutes with sorting. -/
theorem filter_sortLe {α : Type} (le : α → α → Bool) (p : α → Bool)
    (hp : ∀ a b, p a = true → p b = true → le a b = true)
    (l : List α) : (sortLe le l).filter p = l.filter p := by
  induction l with
  | nil => simp [sortLe]
  | cons x xs ih =>
    simp only [sortLe]
    by_cases hx : p x = true
    · rw [filter_insertLe_pos le p hp x _ hx, ih, List.filter_cons, if_pos hx]
    · rw [filter_insertLe_neg le p x _ (by simpa using hx), ih,
        List.filter_cons, if_neg (by simpa using hx)]

/-! ### Lemmas about first-occurrence deduplication -/

theorem mem_firstDedupGo {α : Type} [DecidableEq α] (a : α) :
    ∀ (l seen : List α), a ∈ firstDedupGo seen l ↔ a ∈ l ∧ a ∉ seen := by
  intro l
  induction l with
  | nil => simp [firstDedupGo]
  | cons b l ih =>
    intro seen
    simp only [firstDedupGo]
    split
    · rename_i hb
      rw [ih seen]
      constructor
      · rintro ⟨h1, h2⟩
        exact ⟨List.mem_cons_of_mem b h1, h2⟩
      · rintro ⟨h1, h2⟩
        rcases List.mem_cons.mp h1 with rfl | h1
        · exact absurd hb h2
        · exact ⟨h1, h2⟩
    · rename_i hb
      simp only [List.mem_cons]
      constructor
      · rintro (rfl | h)
        · exact ⟨Or.inl rfl, hb⟩
        · rw [ih] at h
          refine ⟨Or.inr h.1, ?_⟩
          intro hc
          exact h.2 (List.mem_cons_of_mem b hc)
      · rintro ⟨h1, h2⟩
        by_cases hab : a = b
        · exact Or.inl hab
        · refine Or.inr ?_
          rw [ih]
          have h1' : a ∈ l := by
            rcases h1 with h | h
            · exact absurd h hab
            · exact h
          refine ⟨h1', ?_⟩
          intro hc
          rcases List.mem_cons.mp hc with h | h
          · exact hab h
          · exact h2 h

theorem mem_firstDedup {α : Type} [DecidableEq α] (a : α) (l : List α) :
    a ∈ firstDedup l ↔ a ∈ l := by
  rw [firstDedup, mem_firstDedupGo]
  simp

theorem nodup_firstDedupGo {α : Type} [DecidableEq α] :
    ∀ (l seen : List α), (firstDedupGo seen l).Nodup := by
  intro l
  induction l with
  | nil => simp [firstDedupGo]
  | cons b l ih =>
    intro seen
    simp only [firstDedupGo]
    split
    · exact ih seen
    · refine List.Nodup.cons ?_ (ih (b :: seen))
      intro hc
      exact ((mem_firstDedupGo b l (b :: seen)).mp hc).2 (List.mem_cons_self b seen)

theorem nodup_firstDedup {α : Type} [DecidableEq α] (l : List α) :
    (firstDedup l).Nodup :=
  nodup_firstDedupGo l []

/-! ### A counting partition lemma -/

/-- Partitioning a list by a key: summing, over a duplicate-free list of keys
covering every element, the number of elements with each key gives the total
length. -/
theorem sum_filter_key {α κ : Type} [DecidableEq κ] (key : α → κ) :
    ∀ (ks : List κ) (l : List α), ks.Nodup → (∀ x ∈ l, key x ∈ ks) →
      ((ks.map (fun k => (l.filter (fun x => key x = k)).length)).sum = l.length) := by
  intro ks
  induction ks with
  | nil =>
    intro l _ hcov
    have : l = [] := List.eq_nil_iff_forall_not_mem.mpr (fun x hx => by simpa using hcov x hx)
    simp [this]
  | cons k ks ih =>
    intro l hnd hcov
    rcases List.nodup_cons.mp hnd with ⟨hk, hnd'⟩
    have hsplit : (l.filter (fun x => key x = k)).length
        + (l.filter (fun x => ¬ key x = k)).length = l.length := by
      have := (List.length_eq_length_filter_add (l := l) (fun x => key x = k)).symm
      simpa using this
    have hrest : ∀ k' ∈ ks,
        (l.filter (fun x => key x = k')).length
          = ((l.filter (fun x => ¬ key x = k)).filter (fun x => key x = k')).length := by
      intro k' hk'
      rw [List.filter_filter]
      congr 1
      apply List.filter_congr
      intro x _
      have hne : k' ≠ k := fun hc => hk (hc ▸ hk')
      by_cases h : key x = k'
      · simp [h, hne]
      · simp [h]
    have hcov' : ∀ x ∈ l.filter (fun x => ¬ key x = k), key x ∈ ks := by
      intro x hx
      rw [List.mem_filter] at hx
      rcases List.mem_cons.mp (hcov x hx.1) with h | h
      · exact absurd h (by simpa using hx.2)
      · exact h
    have hmap : (ks.map (fun k' => (l.filter (fun x => key x = k')).length))
        = (ks.map (fun k' =>
            ((l.filter (fun x => ¬ key x = k)).filter (fun x => key x = k')).length)) := by
      apply List.map_congr_left
      intro k' hk'
      exact hrest k' hk'
    simp only [List.map_cons, List.sum_cons]
    rw [hmap, ih _ hnd' hcov', ← hsplit]

/-! ### Claim C5 -/

/-- C5: for every message list, `min_len`, `top_n` and skip list, the length
of the `top_words` result is at most `max(top_n, 0)`; for `top_n ≤ 0` and for
the empty message list the result is empty. -/
theorem claim_C5 (msgs : List ChatMessage) (min_len top_n : Int)
    (skip : List String) :
    (top_words msgs min_len top_n skip).length ≤ (max top_n 0).toNat ∧
    (top_n ≤ 0 → top_words msgs min_len top_n skip = []) ∧
    (msgs = [] → top_words msgs min_len top_n skip = []) := by
  refine ⟨?_, ?_, ?_⟩
  · have hmax : (max top_n 0).toNat = top_n.toNat := by omega
    rw [hmax]
    simp only [top_words, List.length_map, List.length_take]
    omega
  · intro h
    have h0 : top_n.toNat = 0 := Int.toNat_of_nonpos h
    simp [top_words, h0]
  · intro h
    subst h
    simp [top_words, countedPairs, firstDedup, firstDedupGo, sortLe]

theorem claim_C5_witness :
    top_words [] 3 (-1) [] = [] ∧ top_words [] 3 5 [] = [] :=
  ⟨(claim_C5 [] 3 (-1) []).2.1 (by decide), (claim_C5 [] 3 5 []).2.2 rfl⟩

/-! ### Claim C7 -/

/-- `collapseRepeats` keeps the head of a non-empty list. -/
theorem collapseRepeats_cons_head (rest : List Char) :
    ∀ b : Char, ∃ t, collapseRepeats (b :: rest) = b :: t := by
  induction rest with
  | nil => intro b; exact ⟨[], rfl⟩
  | cons r rs ih =>
    intro b
    by_cases h : b = r ∧ b ≠ '\n'
    · obtain ⟨t, ht⟩ := ih r
      exact ⟨t, by rw [collapseRepeats, if_pos h, ht, h.1]⟩
    · exact ⟨collapseRepeats (r :: rs), by rw [collapseRepeats, if_neg h]⟩

/-- After collapsing, two adjacent characters are equal only if they are the
newline character (which the regex dot does not match). -/
theorem chain_collapseRepeats (l : List Char) :
    List.Chain' (fun a b => a = b → a = '\n') (collapseRepeats l) := by
  induction l with
  | nil => simp [collapseRepeats]
  | cons a l ih =>
    cases l with
    | nil => simp [collapseRepeats]
    | cons b rest =>
      by_cases h : a = b ∧ a ≠ '\n'
      · rw [collapseRepeats, if_pos h]
        exact ih
      · rw [collapseRepeats, if_neg h]
        obtain ⟨t, ht⟩ := collapseRepeats_cons_head rest b
        rw [ht]
        rw [ht] at ih
        rw [List.chain'_cons]
        refine ⟨?_, ih⟩
        intro hab
        by_cases hn : a = '\n'
        · exact hn
        · exact absurd ⟨hab, hn⟩ h

/-- `collapseRepeats` is the identity on lists already free of adjacent
repeats (other than newline runs). -/
theorem collapseRepeats_of_chain :
    ∀ l : List Char, List.Chain' (fun a b => a = b → a = '\n') l →
      collapseRepeats l = l := by
  intro l
  induction l with
  | nil => intro _; rfl
  | cons a l ih =>
    cases l with
    | nil => intro _; rfl
    | cons b rest =>
      intro h
      rw [List.chain'_cons] at h
      have hcond : ¬ (a = b ∧ a ≠ '\n') := by
        rintro ⟨hab, hn⟩
        exact hn (h.1 hab)
      rw [collapseRepeats, if_neg hcond, ih h.2]

/-- C7 (amended): `normalize_repeats` is idempotent, and in its output two
adjacent characters are equal only when they are newlines (the regex dot
excludes `'\n'`, so newline runs are not collapsed). -/
theorem claim_C7_amended (s : String) :
    normalize_repeats (normalize_repeats s) = normalize_repeats s ∧
    List.Chain' (fun a b => a = b → a = '\n') (normalize_repeats s).data := by
  constructor
  · show (⟨collapseRepeats (collapseRepeats s.data)⟩ : String) = ⟨collapseRepeats s.data⟩
    rw [collapseRepeats_of_chain _ (chain_collapseRepeats s.data)]
  · exact chain_collapseRepeats s.data

/-- C7 counterexample: on a run of two newlines `normalize_repeats` changes
nothing, so its output does contain two equal adjacent characters,
contradicting the claim's "collapses every run of ≥ 2 identical consecutive
characters / no two equal adjacent characters in the output". -/
theorem claim_C7_cex :
    normalize_repeats "\n\n" = "\n\n" ∧
    ¬ List.Chain' (fun a b : Char => a ≠ b) (normalize_repeats "\n\n").data := by
  constructor
  · rfl
  · show ¬ List.Chain' (fun a b : Char => a ≠ b) ['\n', '\n']
    rw [List.chain'_cons]
    rintro ⟨h, _⟩
    exact h rfl

/-! ### Claim C2 -/

/-- A successful `List.lookup` returns one of the stored values. -/
theorem lookup_val_mem {α β : Type} [BEq α] (a : α) (b : β) :
    ∀ l : List (α × β), l.lookup a = some b → b ∈ l.map (fun p => p.2) := by
  intro l
  induction l with
  | nil => intro h; simp [List.lookup] at h
  | cons p ps ih =>
    intro h
    cases hk : a == p.1 with
    | true =>
      simp only [List.lookup, hk] at h
      injection h with h
      exact h ▸ List.mem_map_of_mem _ (List.mem_cons_self p ps)
    | false =>
      simp only [List.lookup, hk] at h
      exact List.mem_cons_of_mem _ (ih h)

/-- Lowercasing never turns a non-whitespace character into whitespace. -/
theorem pyLower_not_space (c : Char) (h : pyIsSpace c = false) :
    pyIsSpace (pyLower c) = false := by
  rw [pyLower]
  cases hl : lowerTable.lookup c with
  | none => exact h
  | some l =>
    have hv := lookup_val_mem c l lowerTable hl
    have hall : ∀ b ∈ lowerTable.map (fun p => p.2), pyIsSpace b = false := by decide
    exact hall l hv

theorem removeUrlsGo_nil (fuel : Nat) : removeUrlsGo fuel [] = [] := by
  cases fuel <;> rfl

/-- Scanning a nonempty all-non-whitespace run right after `http://`
matches the whole URL and emits a single space. -/
theorem removeUrlsGo_http (fuel : Nat) (c : Char) (tail : List Char)
    (hc : pyIsSpace c = false) (htail : ∀ x ∈ tail, pyIsSpace x = false) :
    removeUrlsGo (fuel + 1)
      ('h' :: 't' :: 't' :: 'p' :: ':' :: '/' :: '/' :: c :: tail) = [' '] := by
  have hdrop : (c :: tail).dropWhile (fun d => !pyIsSpace d) = [] := by
    rw [List.dropWhile_eq_nil_iff]
    intro x hx
    rcases List.mem_cons.mp hx with rfl | hx
    · simp [hc]
    · simp [htail x hx]
  have hpre1 : ("https://".toList).isPrefixOf
      ('h' :: 't' :: 't' :: 'p' :: ':' :: '/' :: '/' :: c :: tail) = false := by
    simp [List.isPrefixOf]
  have hpre2 : ("http://".toList).isPrefixOf
      ('h' :: 't' :: 't' :: 'p' :: ':' :: '/' :: '/' :: c :: tail) = true := by
    simp [List.isPrefixOf]
  have hdrop7 : List.drop 7 ('h' :: 't' :: 't' :: 'p' :: ':' :: '/' :: '/' :: c :: tail) = c :: tail := rfl
  have hstrip : stripUrl ('h' :: 't' :: 't' :: 'p' :: ':' :: '/' :: '/' :: c :: tail) = some [] := by
    rw [stripUrl]
    simp only [hpre1, hpre2, if_true, if_false, hdrop7, Bool.false_eq_true, hc, hdrop]
  rw [removeUrlsGo, hstrip]
  show ' ' :: removeUrlsGo fuel [] = [' ']
  rw [removeUrlsGo_nil]

/-- The same for `https://`. -/
theorem removeUrlsGo_https (fuel : Nat) (c : Char) (tail : List Char)
    (hc : pyIsSpace c = false) (htail : ∀ x ∈ tail, pyIsSpace x = false) :
    removeUrlsGo (fuel + 1)
      ('h' :: 't' :: 't' :: 'p' :: 's' :: ':' :: '/' :: '/' :: c :: tail) = [' '] := by
  have hdrop : (c :: tail).dropWhile (fun d => !pyIsSpace d) = [] := by
    rw [List.dropWhile_eq_nil_iff]
    intro x hx
    rcases List.mem_cons.mp hx with rfl | hx
    · simp [hc]
    · simp [htail x hx]
  have hpre1 : ("https://".toList).isPrefixOf
      ('h' :: 't' :: 't' :: 'p' :: 's' :: ':' :: '/' :: '/' :: c :: tail) = true := by
    simp [List.isPrefixOf]
  have hdrop8 : List.drop 8 ('h' :: 't' :: 't' :: 'p' :: 's' :: ':' :: '/' :: '/' :: c :: tail) = c :: tail := rfl
  have hstrip : stripUrl ('h' :: 't' :: 't' :: 'p' :: 's' :: ':' :: '/' :: '/' :: c :: tail) = some [] := by
    rw [stripUrl]
    simp only [hpre1, if_true, hdrop8, Bool.false_eq_true, hc, hdrop]
    simp
  rw [removeUrlsGo, hstrip]
  show ' ' :: removeUrlsGo fuel [] = [' ']
  rw [removeUrlsGo_nil]

/-- C2 (amended): the normalizer removes every `http://` or `https://`
URL-shaped substring (scheme, `://`, then a nonempty non-whitespace run) by
replacing it with whitespace; a message whose text is exactly such a URL
yields no tokens.  (The source regex is `https?://\S+`, not an arbitrary
scheme.) -/
theorem claim_C2_amended (s : String) (hne : s ≠ "")
    (hns : ∀ c ∈ s.data, pyIsSpace c = false) :
    extract_normalized_words ("http://" ++ s) = [] ∧
    extract_normalized_words ("https://" ++ s) = [] := by
  have hldata : ∀ c ∈ s.data.map pyLower, pyIsSpace c = false := by
    intro c hc
    rcases List.mem_map.mp hc with ⟨c0, hc0, rfl⟩
    exact pyLower_not_space c0 (hns c0 hc0)
  have hlne : s.data.map pyLower ≠ [] := by
    intro h
    rcases List.map_eq_nil_iff.mp h with h
    exact hne (by cases s; simp_all)
  obtain ⟨c, tail, hct⟩ : ∃ c tail, s.data.map pyLower = c :: tail := by
    cases hmap : s.data.map pyLower with
    | nil => exact absurd hmap hlne
    | cons c tail => exact ⟨c, tail, rfl⟩
  have hc : pyIsSpace c = false := hldata c (by rw [hct]; exact List.mem_cons_self c tail)
  have htail : ∀ x ∈ tail, pyIsSpace x = false := by
    intro x hx
    exact hldata x (by rw [hct]; exact List.mem_cons_of_mem c hx)
  constructor
  · have hdata : ("http://" ++ s).data.map pyLower
        = 'h' :: 't' :: 't' :: 'p' :: ':' :: '/' :: '/' :: (c :: tail) := by
      rw [String.data_append, List.map_append, hct]
      rfl
    rw [extract_normalized_words, hdata]
    have hlen : ('h' :: 't' :: 't' :: 'p' :: ':' :: '/' :: '/' :: (c :: tail)).length
        = (tail.length + 7) + 1 := by
      simp [List.length_cons]
    rw [removeUrls, hlen, removeUrlsGo_http _ c tail hc htail]
    rfl
  · have hdata : ("https://" ++ s).data.map pyLower
        = 'h' :: 't' :: 't' :: 'p' :: 's' :: ':' :: '/' :: '/' :: (c :: tail) := by
      rw [String.data_append, List.map_append, hct]
      rfl
    rw [extract_normalized_words, hdata]
    have hlen : ('h' :: 't' :: 't' :: 'p' :: 's' :: ':' :: '/' :: '/' :: (c :: tail)).length
        = (tail.length + 8) + 1 := by
      simp [List.length_cons]
    rw [removeUrls, hlen, removeUrlsGo_https _ c tail hc htail]
    rfl

theorem claim_C2_amended_witness :
    "t.me/x" ≠ "" ∧ extract_normalized_words ("https://" ++ "t.me/x") = [] := by
  refine ⟨by decide, (claim_C2_amended "t.me/x" (by decide) ?_).2⟩
  decide

/-- C2 counterexample: `"ftp://abc"` is a URL-shaped string
(`scheme://non-whitespace-run`) containing no other words, yet the code —
whose URL regex is `https?://\S+` — does not remove it, and the message
yields the tokens `["ftp", "abc"]` rather than none. -/
theorem claim_C2_cex :
    extract_normalized_words "ftp://abc" = ["ftp", "abc"] ∧
    extract_normalized_words "ftp://abc" ≠ [] := by
  constructor
  · rfl
  · intro h
    have h1 : extract_normalized_words "ftp://abc" = ["ftp", "abc"] := rfl
    rw [h1] at h
    exact List.cons_ne_nil _ _ h

/-! ### Streak loop lemmas -/

theorem silentLoop_len (rest : List Int) :
    ∀ (prev bl : Int) (bs be : Option Int),
      (silentLoop (bl, bs, be) prev rest).1 = (pairGaps (prev :: rest)).foldl max bl := by
  induction rest with
  | nil => intro prev bl bs be; simp [silentLoop, pairGaps]
  | cons current rest ih =>
    intro prev bl bs be
    have hpg : pairGaps (prev :: current :: rest)
        = (current - prev - 1) :: pairGaps (current :: rest) := by
      simp [pairGaps]
    rw [hpg, List.foldl_cons]
    simp only [silentLoop]
    split
    · rename_i hgap
      rw [ih]
      congr 1
      exact (max_eq_right (le_of_lt hgap)).symm
    · rename_i hgap
      rw [ih]
      congr 1
      exact (max_eq_left (le_of_not_lt hgap)).symm

theorem silentLoop_inv (days : List Int) (rest : List Int) :
    ∀ (pre : List Int) (prev : Int) (st : Int × Option Int × Option Int),
      days = pre ++ prev :: rest → 0 ≤ st.1 → SilentInv days st →
      0 ≤ (silentLoop st prev rest).1 ∧ SilentInv days (silentLoop st prev rest) := by
  induction rest with
  | nil =>
    intro pre prev st hdays h0 hinv
    obtain ⟨bl, bs, be⟩ := st
    simpa [silentLoop] using ⟨h0, hinv⟩
  | cons current rest ih =>
    intro pre prev st hdays h0 hinv
    obtain ⟨bl, bs, be⟩ := st
    simp only at h0
    simp only [silentLoop]
    split
    · rename_i hgap
      have hpos : 0 < current - prev - 1 := lt_of_le_of_lt h0 hgap
      rw [if_pos hpos, if_pos hpos]
      apply ih (pre ++ [prev]) current _ (by simpa using hdays)
      · exact le_of_lt hpos
      · refine Or.inr ⟨hpos, prev, current, ⟨pre, rest, hdays⟩, rfl, rfl, ?_⟩
        simp only
        congr 1
        omega
    · exact ih (pre ++ [prev]) current (bl, bs, be) (by simpa using hdays) h0 hinv

theorem talkLoop_inv (S : List Int) (rest : List Int) :
    ∀ (st : TalkState) (prev : Int),
      TalkInv S st prev → (∀ x ∈ rest, x ∈ S) →
      TalkInv S (talkLoop st prev rest).1 (talkLoop st prev rest).2 := by
  induction rest with
  | nil => intro st prev hinv _; simpa [talkLoop] using hinv
  | cons current rest ih =>
    intro st prev hinv hsub
    obtain ⟨h1, h2, h3, h4, m1, m2, m3, m4⟩ := hinv
    have hcur : current ∈ S := hsub current (List.mem_cons_self _ _)
    have hsub' : ∀ x ∈ rest, x ∈ S := fun x hx => hsub x (List.mem_cons_of_mem _ hx)
    simp only [talkLoop]
    split
    · rename_i hdelta
      refine ih _ current ⟨h1, le_trans h2 (Nat.le_succ _), h3, ?_, m1, m2, m3, hcur⟩ hsub'
      push_cast
      omega
    · split
      · rename_i hbest
        refine ih _ current ⟨le_trans h2 (le_refl _), le_refl 1, ?_, ?_, m3, m4, hcur, hcur⟩ hsub'
        · simpa using h4
        · push_cast
          omega
      · refine ih _ current ⟨h1, le_refl 1, h3, ?_, m1, m2, hcur, hcur⟩ hsub'
        push_cast
        omega

theorem activeDays_sorted (msgs : List ChatMessage) :
    (activeDays msgs).Pairwise (· ≤ ·) := by
  have h := sortLe_sorted (fun a b : Int => a ≤ b)
    (fun a b => by simpa using le_total a b)
    (fun a b c hab hbc => by
      simp only [decide_eq_true_eq] at hab hbc ⊢
      exact le_trans hab hbc)
    ((msgs.map (fun m => m.date_only)).dedup)
  exact h.imp (fun hab => by simpa using hab)

theorem activeDays_perm (msgs : List ChatMessage) :
    (activeDays msgs).Perm (msgs.map (fun m => m.date_only)).dedup :=
  sortLe_perm _ _

theorem activeDays_ne_nil (msgs : List ChatMessage) (h : msgs ≠ []) :
    activeDays msgs ≠ [] := by
  intro hnil
  have hperm := activeDays_perm msgs
  rw [hnil] at hperm
  have hd : (msgs.map (fun m => m.date_only)).dedup = [] := hperm.symm.eq_nil
  rw [List.dedup_eq_nil, List.map_eq_nil_iff] at hd
  exact h hd

/-! ### Claim C3 -/

/-- C3: the silent streak length is the maximum over consecutive pairs of
distinct active days of (days between them minus 1), starting from 0; when
positive, it is realised by a consecutive pair `(p, q)` of active days with
`start_date = p + 1` (the day after the earlier) and `end_date = q - 1`
(the day before the later); when 0, both dates are null. -/
theorem claim_C3 (msgs : List ChatMessage) :
    (longest_talking_and_silent_streaks msgs).silent.length_days
      = (pairGaps (activeDays msgs)).foldl max 0 ∧
    (0 < (longest_talking_and_silent_streaks msgs).silent.length_days →
      ∃ p q, adjacentIn (activeDays msgs) p q ∧
        q - p - 1 = (longest_talking_and_silent_streaks msgs).silent.length_days ∧
        (longest_talking_and_silent_streaks msgs).silent.start_date = some (p + 1) ∧
        (longest_talking_and_silent_streaks msgs).silent.end_date = some (q - 1)) ∧
    ((longest_talking_and_silent_streaks msgs).silent.length_days = 0 →
      (longest_talking_and_silent_streaks msgs).silent.start_date = none ∧
      (longest_talking_and_silent_streaks msgs).silent.end_date = none) := by
  by_cases hm : msgs = []
  · subst hm
    refine ⟨rfl, ?_, fun _ => ⟨rfl, rfl⟩⟩
    intro h
    simp [longest_talking_and_silent_streaks] at h
  · obtain ⟨d, rest, hdr⟩ : ∃ d rest, activeDays msgs = d :: rest := by
      cases hd : activeDays msgs with
      | nil => exact absurd hd (activeDays_ne_nil msgs hm)
      | cons d rest => exact ⟨d, rest, rfl⟩
    have hinv := silentLoop_inv (activeDays msgs) rest [] d (0, none, none) hdr le_rfl
      (Or.inl ⟨rfl, rfl, rfl⟩)
    have hsilent : (longest_talking_and_silent_streaks msgs).silent
        = ⟨(silentOf (activeDays msgs)).1, (silentOf (activeDays msgs)).2.1,
           (silentOf (activeDays msgs)).2.2⟩ := by
      rw [longest_talking_and_silent_streaks, if_neg hm]
    have hof : silentOf (activeDays msgs) = silentLoop (0, none, none) d rest := by
      rw [hdr, silentOf]
    refine ⟨?_, ?_, ?_⟩
    · rw [hsilent, hof, silentLoop_len, hdr]
    · intro hpos
      rw [hsilent, hof] at hpos ⊢
      have hinv2 := hinv.2
      simp only [SilentInv] at hinv2
      rcases hinv2 with ⟨hz, _, _⟩ | ⟨_, p, q, hadj, hgap, hs, he⟩
      · simp only at hpos hz
        omega
      · exact ⟨p, q, hadj, hgap, hs, he⟩
    · intro hzero
      rw [hsilent, hof] at hzero ⊢
      have hinv2 := hinv.2
      simp only [SilentInv] at hinv2
      rcases hinv2 with ⟨_, hs, he⟩ | ⟨hpos, _⟩
      · exact ⟨by simpa using hs, by simpa using he⟩
      · simp only at hzero
        omega

theorem claim_C3_witness :
    ∃ p q, adjacentIn (activeDays [exDay 738886, exDay 738895]) p q ∧
      q - p - 1 = (longest_talking_and_silent_streaks
        [exDay 738886, exDay 738895]).silent.length_days ∧
      (longest_talking_and_silent_streaks
        [exDay 738886, exDay 738895]).silent.start_date = some (p + 1) ∧
      (longest_talking_and_silent_streaks
        [exDay 738886, exDay 738895]).silent.end_date = some (q - 1) :=
  (claim_C3 [exDay 738886, exDay 738895]).2.1 (by decide)

/-! ### Claim C8 -/

/-- C8: streak detection is invariant under permutation of the input message
list. -/
theorem claim_C8 (l₁ l₂ : List ChatMessage) (h : l₁.Perm l₂) :
    longest_talking_and_silent_streaks l₁ = longest_talking_and_silent_streaks l₂ := by
  by_cases h1 : l₁ = []
  · subst h1
    rw [h.symm.eq_nil]
  · have h2 : l₂ ≠ [] := by
      intro hh
      subst hh
      exact h1 h.eq_nil
    have hdays : activeDays l₁ = activeDays l₂ := by
      have hperm : (activeDays l₁).Perm (activeDays l₂) :=
        ((activeDays_perm l₁).trans ((h.map (fun m => m.date_only)).dedup)).trans
          (activeDays_perm l₂).symm
      exact List.eq_of_perm_of_sorted hperm (activeDays_sorted l₁) (activeDays_sorted l₂)
    rw [longest_talking_and_silent_streaks, if_neg h1,
      longest_talking_and_silent_streaks, if_neg h2, hdays]

theorem claim_C8_witness :
    longest_talking_and_silent_streaks [exDay 738887, exDay 738886]
      = longest_talking_and_silent_streaks [exDay 738886, exDay 738887] :=
  claim_C8 [exDay 738887, exDay 738886] [exDay 738886, exDay 738887] (by decide)

/-! ### Claim C9 -/

/-- C9: for a non-empty message list the talking record has non-null dates
`s ≤ e` with `e - s + 1 = length_days`, both being active days; and whenever
the silent record's dates are non-null they satisfy the same length
equation. -/
theorem claim_C9 (msgs : List ChatMessage) (h : msgs ≠ []) :
    (∃ s e, (longest_talking_and_silent_streaks msgs).talking.start_date = some s ∧
      (longest_talking_and_silent_streaks msgs).talking.end_date = some e ∧
      s ≤ e ∧ e + 1 = s + (longest_talking_and_silent_streaks msgs).talking.length_days ∧
      s ∈ activeDays msgs ∧ e ∈ activeDays msgs) ∧
    (∀ s', (longest_talking_and_silent_streaks msgs).silent.start_date = some s' →
      ∃ e', (longest_talking_and_silent_streaks msgs).silent.end_date = some e' ∧
        e' + 1 = s' + (longest_talking_and_silent_streaks msgs).silent.length_days) := by
  obtain ⟨d, rest, hdr⟩ : ∃ d rest, activeDays msgs = d :: rest := by
    cases hd : activeDays msgs with
    | nil => exact absurd hd (activeDays_ne_nil msgs h)
    | cons d rest => exact ⟨d, rest, rfl⟩
  have hstreaks : longest_talking_and_silent_streaks msgs
      = ⟨⟨((talkingOf (activeDays msgs)).1 : Int), some (talkingOf (activeDays msgs)).2.1,
          some (talkingOf (activeDays msgs)).2.2⟩,
         ⟨(silentOf (activeDays msgs)).1, (silentOf (activeDays msgs)).2.1,
          (silentOf (activeDays msgs)).2.2⟩⟩ := by
    rw [longest_talking_and_silent_streaks, if_neg h]
  have hd_mem : d ∈ activeDays msgs := by rw [hdr]; exact List.mem_cons_self _ _
  have hrest : ∀ x ∈ rest, x ∈ activeDays msgs := by
    intro x hx
    rw [hdr]
    exact List.mem_cons_of_mem _ hx
  have htinv := talkLoop_inv (activeDays msgs) rest ⟨1, d, d, 1, d⟩ d
    ⟨le_rfl, le_rfl, by push_cast; omega, by push_cast; omega,
     hd_mem, hd_mem, hd_mem, hd_mem⟩ hrest
  constructor
  · rw [hstreaks]
    simp only
    obtain ⟨h1, h2, h3, h4, m1, m2, m3, m4⟩ := htinv
    have htof : talkingOf (activeDays msgs)
        = (if (talkLoop ⟨1, d, d, 1, d⟩ d rest).1.best_len
              < (talkLoop ⟨1, d, d, 1, d⟩ d rest).1.cur_len then
             ((talkLoop ⟨1, d, d, 1, d⟩ d rest).1.cur_len,
              (talkLoop ⟨1, d, d, 1, d⟩ d rest).1.cur_start,
              (talkLoop ⟨1, d, d, 1, d⟩ d rest).2)
           else
             ((talkLoop ⟨1, d, d, 1, d⟩ d rest).1.best_len,
              (talkLoop ⟨1, d, d, 1, d⟩ d rest).1.best_start,
              (talkLoop ⟨1, d, d, 1, d⟩ d rest).1.best_end)) := by
      rw [hdr, talkingOf]
    rw [htof]
    split
    · refine ⟨(talkLoop ⟨1, d, d, 1, d⟩ d rest).1.cur_start,
        (talkLoop ⟨1, d, d, 1, d⟩ d rest).2, rfl, rfl, by omega, by push_cast; omega, m3, m4⟩
    · refine ⟨(talkLoop ⟨1, d, d, 1, d⟩ d rest).1.best_start,
        (talkLoop ⟨1, d, d, 1, d⟩ d rest).1.best_end, rfl, rfl, by omega, by push_cast; omega,
        m1, m2⟩
  · intro s' hs'
    have hsinv := (silentLoop_inv (activeDays msgs) rest [] d (0, none, none) hdr le_rfl
      (Or.inl ⟨rfl, rfl, rfl⟩)).2
    have hof : silentOf (activeDays msgs) = silentLoop (0, none, none) d rest := by
      rw [hdr, silentOf]
    rw [hstreaks] at hs' ⊢
    simp only at hs' ⊢
    rw [hof] at hs' ⊢
    simp only [SilentInv] at hsinv
    rcases hsinv with ⟨_, hsn, _⟩ | ⟨_, p, q, _, hgap, hsd, hed⟩
    · rw [hsn] at hs'
      exact absurd hs' (by simp)
    · rw [hsd] at hs'
      injection hs' with hs'
      refine ⟨q - 1, hed, ?_⟩
      omega

theorem claim_C9_witness :
    (∃ s e, (longest_talking_and_silent_streaks [exDay 738886]).talking.start_date = some s ∧
      (longest_talking_and_silent_streaks [exDay 738886]).talking.end_date = some e ∧
      s ≤ e ∧ e + 1 = s + (longest_talking_and_silent_streaks [exDay 738886]).talking.length_days ∧
      s ∈ activeDays [exDay 738886] ∧ e ∈ activeDays [exDay 738886]) ∧
    (∀ s', (longest_talking_and_silent_streaks [exDay 738886]).silent.start_date = some s' →
      ∃ e', (longest_talking_and_silent_streaks [exDay 738886]).silent.end_date = some e' ∧
        e' + 1 = s' + (longest_talking_and_silent_streaks [exDay 738886]).silent.length_days) :=
  claim_C9 [exDay 738886] (by decide)

/-! ### Claim C6 -/

theorem listLexLe_iff :
    ∀ as bs : List Char, listLexLe as bs = true ↔ ¬ List.Lex (· < ·) bs as := by
  intro as
  induction as with
  | nil =>
    intro bs
    simp [listLexLe, List.Lex.not_nil_right]
  | cons a as ih =>
    intro bs
    cases bs with
    | nil =>
      rw [listLexLe]
      exact iff_of_false (by simp) (not_not_intro List.Lex.nil)
    | cons b bs =>
      rw [listLexLe]
      rcases lt_trichotomy a b with hab | hab | hab
      · rw [if_pos hab]
        refine iff_of_true rfl ?_
        intro hlex
        cases hlex with
        | rel h => exact absurd hab (asymm h)
        | cons h => exact absurd hab (lt_irrefl a)
      · subst hab
        rw [if_neg (lt_irrefl a), if_neg (lt_irrefl a)]
        rw [show List.Lex (· < ·) (a :: bs) (a :: as) ↔ List.Lex (· < ·) bs as from
          List.Lex.cons_iff]
        exact ih bs
      · rw [if_neg (asymm hab), if_pos hab]
        exact iff_of_false (by simp) (not_not_intro (List.Lex.rel hab))

theorem strLe_iff (a b : String) : strLe a b = true ↔ a ≤ b := by
  rw [String.le_iff_toList_le, ← not_lt]
  have hlt : (b.toList < a.toList) ↔ List.Lex (· < ·) b.toList a.toList := Iff.rfl
  rw [hlt]
  exact listLexLe_iff a.data b.data

theorem strLe_total (a b : String) : strLe a b || strLe b a := by
  rcases le_total a b with h | h
  · simp [(strLe_iff a b).mpr h]
  · simp [(strLe_iff b a).mpr h]

theorem strLe_trans (a b c : String) (hab : strLe a b = true) (hbc : strLe b c = true) :
    strLe a c = true :=
  (strLe_iff a c).mpr (le_trans ((strLe_iff a b).mp hab) ((strLe_iff b c).mp hbc))

/-- C6: `monthly_message_counts` returns exactly one entry per month that
contains at least one message, keyed `"YYYY-MM"`, valued with the number of
messages of that month (hence positive), in strictly ascending key order;
on the spec's three-message example it yields
`[("2024-01", 2), ("2024-03", 1)]`, and on the empty list `[]`. -/
theorem claim_C6 (msgs : List ChatMessage) :
    (monthly_message_counts msgs).Pairwise (fun a b => a.1 < b.1) ∧
    (∀ k : String, (∃ c, (k, c) ∈ monthly_message_counts msgs)
      ↔ ∃ m ∈ msgs, monthKey m.date = k) ∧
    (∀ p ∈ monthly_message_counts msgs,
      p.2 = (msgs.filter (fun m => monthKey m.date = p.1)).length ∧ 0 < p.2) ∧
    monthly_message_counts exMonthly = [("2024-01", 2), ("2024-03", 1)] ∧
    monthly_message_counts [] = [] := by
  have hperm : (monthly_message_counts msgs).Perm
      ((firstDedup (msgs.map (fun m => monthKey m.date))).map (fun k =>
        (k, (msgs.filter (fun m => monthKey m.date = k)).length))) :=
    sortLe_perm _ _
  have hmem : ∀ p, p ∈ monthly_message_counts msgs ↔
      ∃ k, k ∈ msgs.map (fun m => monthKey m.date) ∧
        p = (k, (msgs.filter (fun m => monthKey m.date = k)).length) := by
    intro p
    rw [hperm.mem_iff, List.mem_map]
    constructor
    · rintro ⟨k, hk, rfl⟩
      exact ⟨k, (mem_firstDedup k _).mp hk, rfl⟩
    · rintro ⟨k, hk, rfl⟩
      exact ⟨k, (mem_firstDedup k _).mpr hk, rfl⟩
  refine ⟨?_, ?_, ?_, ?_, rfl⟩
  · have hsorted := sortLe_sorted (fun a b : String × Nat => strLe a.1 b.1)
      (fun a b => strLe_total a.1 b.1)
      (fun a b c hab hbc => strLe_trans a.1 b.1 c.1 hab hbc)
      ((firstDedup (msgs.map (fun m => monthKey m.date))).map (fun k =>
        (k, (msgs.filter (fun m => monthKey m.date = k)).length)))
    have hnodup : ((monthly_message_counts msgs).map (fun p => p.1)).Nodup := by
      refine (hperm.map (fun p => p.1)).nodup_iff.mpr ?_
      rw [List.map_map]
      have : ((fun p : String × Nat => p.1) ∘ (fun k =>
          (k, (msgs.filter (fun m => monthKey m.date = k)).length)))
          = fun k => k := rfl
      rw [this, List.map_id']
      exact nodup_firstDedup _
    have hpneq : (monthly_message_counts msgs).Pairwise (fun a b => a.1 ≠ b.1) := by
      rw [← List.pairwise_map]
      exact hnodup
    have hple : (monthly_message_counts msgs).Pairwise (fun a b => a.1 ≤ b.1) :=
      (hsorted.imp (fun h => (strLe_iff _ _).mp h) : _)
    exact (hple.and hpneq).imp (fun h => lt_of_le_of_ne h.1 h.2)
  · intro k
    constructor
    · rintro ⟨c, hc⟩
      rcases (hmem (k, c)).mp hc with ⟨k', hk', hkeq⟩
      rcases List.mem_map.mp hk' with ⟨m, hm, hmk⟩
      injection hkeq with h1 h2
      exact ⟨m, hm, by rw [hmk, ← h1]⟩
    · rintro ⟨m, hm, hmk⟩
      refine ⟨(msgs.filter (fun m => monthKey m.date = k)).length, ?_⟩
      apply (hmem _).mpr
      exact ⟨k, List.mem_map.mpr ⟨m, hm, hmk⟩, rfl⟩
  · intro p hp
    rcases (hmem p).mp hp with ⟨k, hk, rfl⟩
    refine ⟨rfl, ?_⟩
    rcases List.mem_map.mp hk with ⟨m, hm, hmk⟩
    have : m ∈ msgs.filter (fun m => monthKey m.date = k) :=
      List.mem_filter.mpr ⟨hm, by simp [hmk]⟩
    calc 0 < 1 := Nat.one_pos
    _ ≤ _ := List.length_pos.mpr (List.ne_nil_of_mem this)
  · decide

theorem claim_C6_witness :
    ∃ m ∈ exMonthly, monthKey m.date = "2024-03" :=
  ((claim_C6 exMonthly).2.1 "2024-03").mp ⟨1, by decide⟩

/-! ### Claim C1 -/

/-- Dropping the zero-count entries of a per-sender report does not change
the sum of its values. -/
theorem sum_filterMap_pos (g : String → Nat) (l : List String) :
    ((l.filterMap (fun s => if 0 < g s then some (s, g s) else none)).map
      (fun p => p.2)).sum = (l.map g).sum := by
  induction l with
  | nil => rfl
  | cons s l ih =>
    rw [List.filterMap_cons]
    by_cases h : 0 < g s
    · rw [if_pos h]
      simp only [List.map_cons, List.sum_cons]
      rw [ih]
    · rw [if_neg h]
      have hz : g s = 0 := by omega
      simp only [List.map_cons, List.sum_cons, hz, Nat.zero_add]
      exact ih

theorem filter_pair_split (pairs : List (String × String)) (s w : String) :
    pairs.filter (fun p => p.1 = s ∧ p.2 = w)
      = (pairs.filter (fun p => p.2 = w)).filter (fun p => p.1 = s) := by
  rw [List.filter_filter]
  apply List.filter_congr
  intro x _
  by_cases h1 : x.1 = s <;> by_cases h2 : x.2 = w <;> simp [h1, h2]

/-- The sum of the positive per-sender counts for a word equals the global
count, provided the sender list is duplicate-free and covers every counting
event of that word. -/
theorem per_person_sum (pairs : List (String × String)) (senders : List String)
    (w : String) (hnd : senders.Nodup)
    (hcov : ∀ x ∈ pairs, x.2 = w → x.1 ∈ senders) :
    ((senders.filterMap (fun s =>
        if 0 < (pairs.filter (fun p => p.1 = s ∧ p.2 = w)).length
        then some (s, (pairs.filter (fun p => p.1 = s ∧ p.2 = w)).length)
        else none)).map (fun p => p.2)).sum
      = (pairs.filter (fun p => p.2 = w)).length := by
  rw [sum_filterMap_pos (fun s => (pairs.filter (fun p => p.1 = s ∧ p.2 = w)).length) senders]
  have hmapeq : senders.map (fun s => (pairs.filter (fun p => p.1 = s ∧ p.2 = w)).length)
      = senders.map (fun s =>
          ((pairs.filter (fun p => p.2 = w)).filter (fun x => x.1 = s)).length) := by
    apply List.map_congr_left
    intro s _
    rw [filter_pair_split]
  rw [hmapeq]
  apply sum_filter_key (fun x : String × String => x.1) senders _ hnd
  intro x hx
  rw [List.mem_filter] at hx
  exact hcov x hx.1 (by simpa using hx.2)

/-- C1: in every entry returned by `top_words`, and in every entry returned
by `count_specific_words`, the per-sender counts sum to the entry's
`total_count`. -/
theorem claim_C1 :
    (∀ (msgs : List ChatMessage) (min_len top_n : Int) (skip : List String)
        (e : WordEntry), e ∈ top_words msgs min_len top_n skip →
        (e.per_person.map (fun p => p.2)).sum = e.total_count) ∧
    (∀ (msgs : List ChatMessage) (targets : List String)
        (e : TargetEntry), e ∈ count_specific_words msgs targets →
        (e.per_person.map (fun p => p.2)).sum = e.total_count) := by
  constructor
  · intro msgs min_len top_n skip e he
    rw [top_words] at he
    rcases List.mem_map.mp he with ⟨wc, hwc, rfl⟩
    have hwc' : wc ∈ twItems msgs min_len skip :=
      (sortLe_perm _ _).mem_iff.mp (List.mem_of_mem_take hwc)
    rw [twItems] at hwc'
    rcases List.mem_map.mp hwc' with ⟨w, hw, rfl⟩
    simp only
    rw [twPerPerson]
    apply per_person_sum
    · exact nodup_firstDedup _
    · intro x hx _
      exact (mem_firstDedup _ _).mpr (List.mem_map_of_mem _ hx)
  · intro msgs targets e he
    rw [count_specific_words] at he
    rcases List.mem_map.mp he with ⟨ono, hono, rfl⟩
    simp only
    rw [cswPerPerson]
    apply per_person_sum
    · exact nodup_firstDedup _
    · intro x hx hxw
      rcases List.mem_flatMap.mp hx with ⟨m, hm, hxm⟩
      rcases List.mem_map.mp hxm with ⟨w, hwm, rfl⟩
      apply (mem_firstDedup _ _).mpr
      refine List.mem_map_of_mem _ (List.mem_filter.mpr ⟨hm, ?_⟩)
      rw [List.any_eq_true]
      refine ⟨ono.2, ?_, ?_⟩
      · simpa using hxw ▸ hwm
      · have hmem : ono.2 ∈ (normTargets targets).map (fun p => p.2) :=
          List.mem_map_of_mem _ hono
        simpa using hmem

theorem claim_C1_witness :
    ((⟨"привіт", 3, [("Аня", 2), ("user123", 1)]⟩ : WordEntry).per_person.map
        (fun p => p.2)).sum
      = (⟨"привіт", 3, [("Аня", 2), ("user123", 1)]⟩ : WordEntry).total_count ∧
    ((⟨"Привііт", 3, [("Аня", 2), ("user123", 1)]⟩ : TargetEntry).per_person.map
        (fun p => p.2)).sum
      = (⟨"Привііт", 3, [("Аня", 2), ("user123", 1)]⟩ : TargetEntry).total_count :=
  ⟨claim_C1.1 exMsgs 3 10 [] _ (by decide),
   claim_C1.2 exMsgs ["Привііт", "звук"] _ (by decide)⟩

/-! ### Claim C10 -/

theorem mem_normTargets (targets : List String) (ono : String × String) :
    ono ∈ normTargets targets ↔
      ono.1 ∈ targets ∧ normalize_single ono.1 ≠ "" ∧ ono.2 = normalize_single ono.1 := by
  rw [normTargets, List.mem_filterMap]
  constructor
  · rintro ⟨w, hw, hf⟩
    simp only at hf
    by_cases h : normalize_single w = ""
    · rw [if_pos h] at hf
      exact absurd hf (by simp)
    · rw [if_neg h] at hf
      injection hf with hf
      subst hf
      exact ⟨(mem_firstDedup _ _).mp hw, h, rfl⟩
  · rintro ⟨h1, h2, h3⟩
    refine ⟨ono.1, (mem_firstDedup _ _).mpr h1, ?_⟩
    simp only
    rw [if_neg h2, ← h3]

/-- C10: every supplied target with a non-empty normalized form appears as a
key of the `count_specific_words` result, even if it never matches a token —
then with `total_count = 0` and an empty per-sender map; targets normalizing
to the empty string are the only absent ones. -/
theorem claim_C10 (msgs : List ChatMessage) (targets : List String) (t : String)
    (ht : t ∈ targets) :
    (normalize_single t ≠ "" →
      ∃ e ∈ count_specific_words msgs targets, e.target = t ∧
        ((∀ m ∈ msgs, normalize_single t ∉ msgTokens m) →
          e.total_count = 0 ∧ e.per_person = [])) ∧
    (normalize_single t = "" →
      ∀ e ∈ count_specific_words msgs targets, e.target ≠ t) := by
  constructor
  · intro hne
    have hmem : (t, normalize_single t) ∈ normTargets targets :=
      (mem_normTargets targets (t, normalize_single t)).mpr ⟨ht, hne, rfl⟩
    refine ⟨{ target := t
              total_count := ((allSenderTokens msgs).filter
                (fun p => p.2 = normalize_single t)).length
              per_person := cswPerPerson msgs targets (normalize_single t) },
      ?_, rfl, ?_⟩
    · rw [count_specific_words]
      exact List.mem_map_of_mem _ hmem
    · intro hno
      have hfilt : (allSenderTokens msgs).filter (fun p => p.2 = normalize_single t) = [] := by
        rw [List.filter_eq_nil_iff]
        intro a ha
        rcases List.mem_flatMap.mp ha with ⟨m, hm, ham⟩
        rcases List.mem_map.mp ham with ⟨w, hwm, rfl⟩
        simp only [decide_eq_true_eq]
        intro hw
        exact hno m hm (hw ▸ hwm)
      constructor
      · simp [hfilt]
      · rw [cswPerPerson, List.filterMap_eq_nil_iff]
        intro s _
        have hz : ((allSenderTokens msgs).filter
            (fun p => p.1 = s ∧ p.2 = normalize_single t)).length = 0 := by
          rw [filter_pair_split, hfilt]
          rfl
        rw [hz]
        rfl
  · intro hz e he heq
    rw [count_specific_words] at he
    rcases List.mem_map.mp he with ⟨ono, hono, rfl⟩
    rcases (mem_normTargets targets ono).mp hono with ⟨_, hne, _⟩
    simp only at heq
    exact hne (heq ▸ hz)

theorem claim_C10_witness :
    ∃ e ∈ count_specific_words exMsgs ["Привііт", "звук", ""], e.target = "звук" ∧
      ((∀ m ∈ exMsgs, normalize_single "звук" ∉ msgTokens m) →
        e.total_count = 0 ∧ e.per_person = []) :=
  (claim_C10 exMsgs ["Привііт", "звук", ""] "звук" (by decide)).1 (by decide)

/-! ### Claim C4 -/

/-- C4: `top_words` is ordered by non-increasing `total_count`; within each
count class the returned words are an initial segment, in order, of the
first-encounter word order; no returned entry is outranked by an unreturned
word; and exactly the first `top_n` entries of the ranking are returned. -/
theorem claim_C4 (msgs : List ChatMessage) (min_len top_n : Int)
    (skip : List String) :
    (top_words msgs min_len top_n skip).Pairwise
      (fun a b => b.total_count ≤ a.total_count) ∧
    (∀ c : Nat,
      ((top_words msgs min_len top_n skip).filter
          (fun e => e.total_count = c)).map (fun e => e.word) <+:
        (twWords msgs min_len skip).filter (fun w =>
          ((twPairs msgs min_len skip).filter (fun p => p.2 = w)).length = c)) ∧
    (∀ e ∈ top_words msgs min_len top_n skip, ∀ w ∈ twWords msgs min_len skip,
      e.total_count < ((twPairs msgs min_len skip).filter (fun p => p.2 = w)).length →
      ∃ e' ∈ top_words msgs min_len top_n skip, e'.word = w) ∧
    (top_words msgs min_len top_n skip).length
      = min top_n.toNat (twWords msgs min_len skip).length := by
  have hsorted := sortLe_sorted (fun a b : String × Nat => (b.2 ≤ a.2 : Bool))
    (fun a b => by simpa using Nat.le_total b.2 a.2)
    (fun a b c hab hbc => by
      simp only [decide_eq_true_eq] at hab hbc ⊢
      omega)
    (twItems msgs min_len skip)
  refine ⟨?_, ?_, ?_, ?_⟩
  · rw [top_words]
    rw [List.pairwise_map]
    refine List.Pairwise.sublist (List.take_sublist _ _) ?_
    exact hsorted.imp (fun h => by simpa using h)
  · intro c
    rw [top_words, List.filter_map]
    have hcomp : ((fun e : WordEntry => decide (e.total_count = c)) ∘ fun wc : String × Nat =>
        ({ word := wc.1, total_count := wc.2
           per_person := twPerPerson msgs min_len skip wc.1 } : WordEntry))
        = fun wc : String × Nat => decide (wc.2 = c) := rfl
    rw [hcomp, List.map_map]
    have hmapcomp : ((fun e : WordEntry => e.word) ∘ fun wc : String × Nat =>
        ({ word := wc.1, total_count := wc.2
           per_person := twPerPerson msgs min_len skip wc.1 } : WordEntry))
        = fun wc : String × Nat => wc.1 := rfl
    rw [hmapcomp]
    have hstab : (sortLe (fun a b : String × Nat => (b.2 ≤ a.2 : Bool))
        (twItems msgs min_len skip)).filter (fun wc => wc.2 = c)
        = (twItems msgs min_len skip).filter (fun wc => wc.2 = c) := by
      apply filter_sortLe
      intro a b ha hb
      simp only [decide_eq_true_eq] at ha hb ⊢
      omega
    have htake : (((sortLe (fun a b : String × Nat => (b.2 ≤ a.2 : Bool))
          (twItems msgs min_len skip)).take top_n.toNat).filter
            (fun wc => wc.2 = c)).map (fun wc => wc.1) <+:
        ((sortLe (fun a b : String × Nat => (b.2 ≤ a.2 : Bool))
          (twItems msgs min_len skip)).filter (fun wc => wc.2 = c)).map
            (fun wc => wc.1) :=
      List.IsPrefix.map _ (List.IsPrefix.filter _ (List.take_prefix _ _))
    rw [hstab] at htake
    rw [twItems, List.filter_map] at htake
    have hcomp2 : ((fun wc : String × Nat => decide (wc.2 = c)) ∘ fun w =>
        (w, ((twPairs msgs min_len skip).filter (fun p => p.2 = w)).length))
        = fun w => decide
            (((twPairs msgs min_len skip).filter (fun p => p.2 = w)).length = c) := rfl
    rw [hcomp2, List.map_map] at htake
    have hcomp3 : ((fun wc : String × Nat => wc.1) ∘ fun w =>
        (w, ((twPairs msgs min_len skip).filter (fun p => p.2 = w)).length))
        = fun w => w := rfl
    rw [hcomp3, List.map_id'] at htake
    exact htake
  · intro e he w hw hlt
    rw [top_words] at he ⊢
    rcases List.mem_map.mp he with ⟨wc, hwc, rfl⟩
    have hwitem : (w, ((twPairs msgs min_len skip).filter (fun p => p.2 = w)).length)
        ∈ twItems msgs min_len skip := by
      rw [twItems]
      exact List.mem_map_of_mem _ hw
    have hwsort : (w, ((twPairs msgs min_len skip).filter (fun p => p.2 = w)).length)
        ∈ sortLe (fun a b : String × Nat => (b.2 ≤ a.2 : Bool))
            (twItems msgs min_len skip) :=
      (sortLe_perm _ _).mem_iff.mpr hwitem
    rw [← List.take_append_drop top_n.toNat
      (sortLe (fun a b : String × Nat => (b.2 ≤ a.2 : Bool))
        (twItems msgs min_len skip)), List.mem_append] at hwsort
    rcases hwsort with hin | hout
    · exact ⟨_, List.mem_map_of_mem _ hin, rfl⟩
    · exfalso
      have hpw := hsorted
      rw [← List.take_append_drop top_n.toNat
        (sortLe (fun a b : String × Nat => (b.2 ≤ a.2 : Bool))
          (twItems msgs min_len skip)), List.pairwise_append] at hpw
      have := hpw.2.2 wc hwc _ hout
      simp only [decide_eq_true_eq] at this
      simp only at hlt
      omega
  · rw [top_words, List.length_map, List.length_take,
      (sortLe_perm _ _).length_eq, twItems, List.length_map]

theorem claim_C4_witness :
    ∃ e' ∈ top_words exMsgs 3 10 [], e'.word = "привіт" :=
  (claim_C4 exMsgs 3 10 []).2.2.1 ⟨"helo", 1, [("unknown", 1)]⟩ (by decide) "привіт"
    (by decide) (by decide)

end ChatStats
